import Mathlib

/-!
# Verification of the `obsessive_peek` lookahead-buffering iterator adapter

Shallow embedding of `src/peek_iterator.rs` (struct `PeekMoreIterator`) and
the constructor from `src/peekmore.rs`.  The underlying iterator (`Source`)
is modelled as a Lean `List α`: pulling `next()` from it returns `some` of
the head (removing it) or `none` once the list is empty — a fused, finite
source.  The queue is `List (Option α)` exactly as the Rust
`Vec<Option<I::Item>>` (a `none` entry is a recorded end-of-source marker).
The cursor is a Rust `usize`; where its overflow behaviour matters we model
the exact source arithmetic over `Nat`: `saturating_add` saturates at
`2^64 - 1`, and the unchecked `+=` of `advance_cursor_by` wraps modulo
`2^64` (release builds; debug builds panic — either way it does not
saturate).
-/

namespace ObsessivePeek

/-- `usize::MAX + 1 = 2^64` (64-bit target). -/
def USIZE : Nat := 2 ^ 64

/-- `usize::MAX`. -/
def USIZE_MAX : Nat := 2 ^ 64 - 1

/-- The adapter state: `struct PeekMoreIterator<I>` with fields
`iterator : I`, `queue : Vec<Option<I::Item>>`, `cursor : usize`. -/
structure PMI (α : Type) where
  iterator : List α
  queue : List (Option α)
  cursor : Nat
deriving Repr, DecidableEq

/-- `PeekMore::peekmore` (src/peekmore.rs): wrap a source with empty queue
and cursor 0. -/
def init (src : List α) : PMI α :=
  { iterator := src, queue := [], cursor := 0 }

/-- `push_next_to_queue`: pull one item from the underlying iterator and
push the result (which is `none` once the source is exhausted) onto the
back of the queue. -/
def push_next_to_queue (st : PMI α) : PMI α :=
  match st.iterator with
  | [] => { st with queue := st.queue ++ [none] }
  | x :: xs => { st with iterator := xs, queue := st.queue ++ [some x] }

/-- `n` successive `push_next_to_queue` calls (a counted `for` loop of
pulls). -/
def pushN : Nat → PMI α → PMI α
  | 0, st => st
  | n + 1, st => pushN n (push_next_to_queue st)

/-- `increment_cursor`: `self.cursor = self.cursor.saturating_add(1)`. -/
def increment_cursor (st : PMI α) : PMI α :=
  { st with cursor := min (st.cursor + 1) USIZE_MAX }

/-- `decrement_cursor`: `if self.cursor > usize::MIN { self.cursor -= 1 }`. -/
def decrement_cursor (st : PMI α) : PMI α :=
  { st with cursor := st.cursor - 1 }

/-- `fill_queue_divide_conquer`, chunked branch: the nested
`for _ in 0..chunks { for _ in 0..CHUNK_SIZE { push } }` loop. -/
def pushChunks : Nat → PMI α → PMI α
  | 0, st => st
  | c + 1, st => pushChunks c (pushN 500 st)

/-- `fill_queue_divide_conquer(required_elements)`: chunked filling for
large batches (CHUNK_SIZE = 500).  In the source it is only called with
`queue.len() ≤ required_elements` (from `fill_queue`). -/
def fill_queue_divide_conquer (required_elements : Nat) (st : PMI α) : PMI α :=
  let current_len := st.queue.length
  let remaining := required_elements - current_len + 1
  if remaining > 500 then
    pushN (remaining % 500) (pushChunks (remaining / 500) st)
  else
    pushN (required_elements + 1 - current_len) st

/-- `fill_queue(required_elements)`: if the queue holds at most
`required_elements` slots, pull and append until its length is
`required_elements + 1`; batches of more than 1000 go through the
divide-and-conquer path. -/
def fill_queue (required_elements : Nat) (st : PMI α) : PMI α :=
  let stored_elements := st.queue.length
  if stored_elements ≤ required_elements then
    let elements_needed := required_elements - stored_elements + 1
    if elements_needed > 1000 then
      fill_queue_divide_conquer required_elements st
    else
      pushN (required_elements + 1 - stored_elements) st
  else st

/-- `peek()`: fill the queue up to the cursor and return the item stored at
the cursor slot (flattening the `Option<Option<_>>` of `get`/`as_ref`). -/
def peek (st : PMI α) : Option α × PMI α :=
  let st' := fill_queue st.cursor st
  ((st'.queue[st.cursor]?).bind id, st')

/-- `peek_nth(n)`: like `peek` but at absolute queue offset `n`; does not
read or move the cursor. -/
def peek_nth (n : Nat) (st : PMI α) : Option α × PMI α :=
  let st' := fill_queue n st
  ((st'.queue[n]?).bind id, st')

/-- `peek_first()` = `peek_nth(0)`. -/
def peek_first (st : PMI α) : Option α × PMI α :=
  peek_nth 0 st

/-- `advance_cursor()`: `increment_cursor` (saturating). -/
def advance_cursor (st : PMI α) : PMI α :=
  increment_cursor st

/-- `advance_cursor_by(n)`: `if n > 0 { self.cursor += n }`.  The `+=` is
unchecked: it wraps modulo `2^64` in release builds (debug builds panic);
it does not saturate. -/
def advance_cursor_by (n : Nat) (st : PMI α) : PMI α :=
  if 0 < n then { st with cursor := (st.cursor + n) % USIZE } else st

/-- `move_cursor_back()`: decrement the cursor, or fail with
`ElementHasBeenConsumed` when the cursor is 0.  The pair's second
component is the (possibly unchanged) state; `true` stands for `Ok`. -/
def move_cursor_back (st : PMI α) : Bool × PMI α :=
  if 1 ≤ st.cursor then (true, decrement_cursor st) else (false, st)

/-- `move_cursor_back_by(n)`: subtract `n` from the cursor, or fail with
`ElementHasBeenConsumed` when `cursor < n` (state untouched). -/
def move_cursor_back_by (n : Nat) (st : PMI α) : Bool × PMI α :=
  if st.cursor < n then (false, st) else (true, { st with cursor := st.cursor - n })

/-- `move_cursor_back_or_reset(n)`. -/
def move_cursor_back_or_reset (n : Nat) (st : PMI α) : PMI α :=
  if st.cursor < n then { st with cursor := 0 } else { st with cursor := st.cursor - n }

/-- `move_nth(n)`. -/
def move_nth (n : Nat) (st : PMI α) : PMI α :=
  { st with cursor := n }

/-- `reset_cursor()`. -/
def reset_cursor (st : PMI α) : PMI α :=
  { st with cursor := 0 }

/-- `peek_previous()`: if `cursor ≥ 1`, move back one step and peek (the
`Ok` case, first component `some`); otherwise fail (first component
`none`, state untouched). -/
def peek_previous (st : PMI α) : Option (Option α) × PMI α :=
  if 1 ≤ st.cursor then
    let m := move_cursor_back st
    let p := peek m.2
    (some p.1, p.2)
  else (none, st)

/-- `peek_next()`: advance the cursor, then peek. -/
def peek_next (st : PMI α) : Option α × PMI α :=
  peek (advance_cursor st)

/-- `peek_forward(n)`: advance the cursor by `n`, then peek. -/
def peek_forward (n : Nat) (st : PMI α) : Option α × PMI α :=
  peek (advance_cursor_by n st)

/-- `peek_backward(n)`: move the cursor back by `n` and peek, or fail. -/
def peek_backward (n : Nat) (st : PMI α) : Option (Option α) × PMI α :=
  let m := move_cursor_back_by n st
  if m.1 then
    let p := peek m.2
    (some p.1, p.2)
  else (none, m.2)

/-- `peek_backward_or_first(n)`. -/
def peek_backward_or_first (n : Nat) (st : PMI α) : Option α × PMI α :=
  let m := move_cursor_back_by n st
  if m.1 then peek m.2 else peek (reset_cursor m.2)

/-- `next()` (the `Iterator` impl): pop the queue's front slot, or pull the
source directly when the queue is empty; afterwards decrement the cursor
(saturating at 0). -/
def next (st : PMI α) : Option α × PMI α :=
  match st.queue with
  | s :: rest => (s, decrement_cursor { st with queue := rest })
  | [] =>
    match st.iterator with
    | [] => (none, decrement_cursor st)
    | x :: xs => (some x, decrement_cursor { st with iterator := xs })

/-- `next_if(func)`: peek at the first unconsumed element; if the predicate
accepts it, consume with a full `next()`, otherwise return `None` (the
state keeps whatever `peek_first` buffered). -/
def next_if (func : α → Bool) (st : PMI α) : Option α × PMI α :=
  let p := peek_first st
  match p.1 with
  | some matched => if func matched then next p.2 else (none, p.2)
  | none => (none, p.2)

/-- `next_if_eq(expected)` = `next_if(|v| v == expected)`. -/
def next_if_eq [DecidableEq α] (expected : α) (st : PMI α) : Option α × PMI α :=
  next_if (fun v => v = expected) st

/-- `truncate_iterator_to_cursor()`: drop the front `cursor` slots of the
queue when `cursor < queue.len()`; otherwise pull-and-discard the overflow
(`cursor - queue.len()` pulls) directly from the source and clear the
queue.  Finally set the cursor to 0. -/
def truncate_iterator_to_cursor (st : PMI α) : PMI α :=
  if st.cursor < st.queue.length then
    { st with queue := st.queue.drop st.cursor, cursor := 0 }
  else
    { st with iterator := st.iterator.drop (st.cursor - st.queue.length),
              queue := [], cursor := 0 }

/-- `fill_queue_in_chunks(current_end, target_end, chunk_size)`: the
`while current_pos < target_end` loop.  The guard `0 < chunk_size` makes
the recursion well-founded; every call site passes 500, 1000 or 2000. -/
def fill_queue_in_chunks (chunk_size current_pos target_end : Nat) (st : PMI α) :
    PMI α :=
  if _h : current_pos < target_end ∧ 0 < chunk_size then
    let next_end := min (current_pos + chunk_size) target_end
    fill_queue_in_chunks chunk_size next_end target_end
      (pushN (next_end - current_pos) st)
  else st
termination_by target_end - current_pos
decreasing_by
  omega

/-- `peek_range_optimized(start, end)`: chunked filling for large ranges,
then the slice `queue[start..end]`.  `none` models the panic of an
out-of-bounds slice. -/
def peek_range_optimized (start stop : Nat) (st : PMI α) :
    Option (List (Option α) × PMI α) :=
  let current_len := st.queue.length
  let st' :=
    if stop > current_len then
      let range_size := stop - current_len
      let chunk_size :=
        if range_size > 10000 then 2000
        else if range_size > 5000 then 1000
        else 500
      fill_queue_in_chunks chunk_size current_len stop st
    else st
  if stop ≤ st'.queue.length then
    some ((st'.queue.drop start).take (stop - start), st')
  else none

/-- `peek_range(start, end)`: asserts `start ≤ end` (`none` models the
panic), ranges over 2000 go through `peek_range_optimized`, smaller ones
fill the queue up to `end` and slice `queue[start..end]`. -/
def peek_range (start stop : Nat) (st : PMI α) :
    Option (List (Option α) × PMI α) :=
  if start ≤ stop then
    if stop - start > 2000 then
      peek_range_optimized start stop st
    else
      let st' := if stop > st.queue.length then fill_queue stop st else st
      if stop ≤ st'.queue.length then
        some ((st'.queue.drop start).take (stop - start), st')
      else none
  else none

/-- `peek_amount(n)` = `peek_range(0, n)`. -/
def peek_amount (n : Nat) (st : PMI α) : Option (List (Option α) × PMI α) :=
  peek_range 0 n st

/-- `optimize_queue_for_cursor(target_cursor)`: the `_estimated_capacity`
computed in the source is unused (let-bound with a leading underscore); the
only effect is `fill_queue(target_cursor)` when the queue is short. -/
def optimize_queue_for_cursor (target_cursor : Nat) (st : PMI α) : PMI α :=
  if st.queue.length ≤ target_cursor then fill_queue target_cursor st else st

/-- `advance_cursor_by_optimized(n)`: `self.cursor + n` is again unchecked
(wraps modulo `2^64` in release builds). -/
def advance_cursor_by_optimized (n : Nat) (st : PMI α) : PMI α :=
  if n = 0 then st
  else
    let new_cursor := (st.cursor + n) % USIZE
    let st' :=
      if n > 100 then optimize_queue_for_cursor new_cursor st
      else fill_queue new_cursor st
    { st' with cursor := new_cursor }

/-- `advance_cursor_while(predicate)` (src 396-408) is *recursive*: each
matching peek makes one further nested call.  We embed it with explicit
fuel; `none` means the computation did not finish within `fuel` calls. -/
def advance_cursor_while_fuel (pred : Option α → Bool) :
    Nat → PMI α → Option (PMI α)
  | 0, _ => none
  | fuel + 1, st =>
    let p := peek st
    if pred p.1 then advance_cursor_while_fuel pred fuel (increment_cursor p.2)
    else some p.2

/-- The number of (nested) invocations of `advance_cursor_while` that the
source's recursion performs — i.e. the call-stack depth it needs —
when it finishes within `fuel` calls. -/
def advance_cursor_while_depth (pred : Option α → Bool) :
    Nat → PMI α → Option Nat
  | 0, _ => none
  | fuel + 1, st =>
    let p := peek st
    if pred p.1 then
      (advance_cursor_while_depth pred fuel (increment_cursor p.2)).map (· + 1)
    else some 1

/-- `advance_cursor_while` truncated after `fuel` iterations, returning the
state reached so far (used to include the loop in the operation alphabet:
every intermediate state of the real loop is reached by some fuel). -/
def advance_cursor_while_steps (pred : Option α → Bool) :
    Nat → PMI α → PMI α
  | 0, st => st
  | fuel + 1, st =>
    let p := peek st
    if pred p.1 then advance_cursor_while_steps pred fuel (increment_cursor p.2)
    else p.2

/-- The Rust default `Iterator::size_hint`, namely `(0, None)`.  The
`impl Iterator for PeekMoreIterator` (src 791-805) overrides only `next`,
so the adapter inherits this default for `size_hint`. -/
def size_hint (_st : PMI α) : Nat × Option Nat := (0, none)

/-- The default `ExactSizeIterator::len`, which is what the blanket
`impl<I: ExactSizeIterator> ExactSizeIterator for PeekMoreIterator<I> {}`
(src 810) uses: `let (lower, upper) = self.size_hint();
assert_eq!(upper, Some(lower)); lower`.  `none` models the `assert_eq!`
panic. -/
def exact_size_len (st : PMI α) : Option Nat :=
  let sh := size_hint st
  if sh.2 = some sh.1 then some sh.1 else none

/-- The number of items still obtainable through `next()`: buffered items
plus the rest of the source. -/
def remaining (st : PMI α) : Nat :=
  (st.queue.filterMap id).length + st.iterator.length

/-! ## Reference (unbatched) definitions, named after the spec's
one-element-at-a-time filling, for the refinement claim C3. -/

/-- Spec-side reference: unbatched `fill_queue` — pull one element at a
time until the queue holds `required + 1` slots, with no chunking. -/
def fill_queue_unbatched (required : Nat) (st : PMI α) : PMI α :=
  if st.queue.length ≤ required then
    pushN (required + 1 - st.queue.length) st
  else st

/-- Spec-side reference: `peek_range` where any needed filling goes through
the unbatched path (the source's own small-range branch), regardless of the
range size. -/
def peek_range_unbatched (start stop : Nat) (st : PMI α) :
    Option (List (Option α) × PMI α) :=
  if start ≤ stop then
    let st' := if stop > st.queue.length then fill_queue_unbatched stop st else st
    if stop ≤ st'.queue.length then
      some ((st'.queue.drop start).take (stop - start), st')
    else none
  else none

/-! ## The operation alphabet (§6 of the spec) and its step function -/

/-- One call on the adapter's public surface. -/
inductive Op (α : Type) where
  | advanceCursor
  | advanceCursorBy (n : Nat)
  | advanceCursorByOptimized (n : Nat)
  | advanceCursorWhile (pred : Option α → Bool) (fuel : Nat)
  | moveCursorBack
  | moveCursorBackBy (n : Nat)
  | moveCursorBackOrReset (n : Nat)
  | moveNth (n : Nat)
  | resetCursor
  | peekOp
  | peekNth (n : Nat)
  | peekFirst
  | peekNext
  | peekPrevious
  | peekForward (n : Nat)
  | peekBackward (n : Nat)
  | peekBackwardOrFirst (n : Nat)
  | peekRange (start stop : Nat)
  | peekAmount (n : Nat)
  | nextOp
  | nextIf (func : α → Bool)
  | truncate

/-- The state reached after one adapter call (discarding the returned
value; a panicking `peek_range` leaves no successor state, modelled as the
unchanged state). -/
def step (op : Op α) (st : PMI α) : PMI α :=
  match op with
  | .advanceCursor => advance_cursor st
  | .advanceCursorBy n => advance_cursor_by n st
  | .advanceCursorByOptimized n => advance_cursor_by_optimized n st
  | .advanceCursorWhile pred fuel => advance_cursor_while_steps pred fuel st
  | .moveCursorBack => (move_cursor_back st).2
  | .moveCursorBackBy n => (move_cursor_back_by n st).2
  | .moveCursorBackOrReset n => move_cursor_back_or_reset n st
  | .moveNth n => move_nth n st
  | .resetCursor => reset_cursor st
  | .peekOp => (peek st).2
  | .peekNth n => (peek_nth n st).2
  | .peekFirst => (peek_first st).2
  | .peekNext => (peek_next st).2
  | .peekPrevious => (peek_previous st).2
  | .peekForward n => (peek_forward n st).2
  | .peekBackward n => (peek_backward n st).2
  | .peekBackwardOrFirst n => (peek_backward_or_first n st).2
  | .peekRange start stop => ((peek_range start stop st).map Prod.snd).getD st
  | .peekAmount n => ((peek_amount n st).map Prod.snd).getD st
  | .nextOp => (next st).2
  | .nextIf func => (next_if func st).2
  | .truncate => truncate_iterator_to_cursor st

/-- The contiguity invariant of §3/§4 at consumption point `k`: slot `i` of
the queue records exactly position `k + i` of the original source sequence
`S` (`none` past `S`'s end), and the unpulled remainder of the source is
`S` from position `k + queue.length` on. -/
def wfAt (S : List α) (k : Nat) (st : PMI α) : Prop :=
  (∀ i, i < st.queue.length → st.queue[i]? = some S[k + i]?) ∧
  st.iterator = S.drop (k + st.queue.length)

/-- A state is well formed when it buffers a contiguous run of source
positions starting at some consumption point. -/
def wf (S : List α) (st : PMI α) : Prop :=
  ∃ k, wfAt S k st

/-! ## Basic facts about pulls and queue filling -/

theorem push_next_queue (st : PMI α) :
    (push_next_to_queue st).queue = st.queue ++ [st.iterator[0]?] := by
  cases h : st.iterator <;> simp [push_next_to_queue, h]

theorem push_next_iterator (st : PMI α) :
    (push_next_to_queue st).iterator = st.iterator.drop 1 := by
  cases h : st.iterator <;> simp [push_next_to_queue, h]

theorem push_next_cursor (st : PMI α) :
    (push_next_to_queue st).cursor = st.cursor := by
  cases h : st.iterator <;> simp [push_next_to_queue, h]

theorem pushN_queue (n : Nat) (st : PMI α) :
    (pushN n st).queue = st.queue ++ (List.range n).map (fun i => st.iterator[i]?) := by
  induction n generalizing st with
  | zero => simp [pushN]
  | succ n ih =>
    rw [pushN, ih, push_next_queue, push_next_iterator, List.append_assoc]
    congr 1
    rw [List.range_succ_eq_map, List.map_cons, List.map_map, List.singleton_append]
    congr 1
    apply List.map_congr_left
    intro i _
    simp [List.getElem?_drop, Nat.add_comm, Nat.succ_eq_add_one]

theorem pushN_iterator (n : Nat) (st : PMI α) :
    (pushN n st).iterator = st.iterator.drop n := by
  induction n generalizing st with
  | zero => simp [pushN]
  | succ n ih =>
    rw [pushN, ih, push_next_iterator, List.drop_drop]
    congr 1
    omega

theorem pushN_cursor (n : Nat) (st : PMI α) :
    (pushN n st).cursor = st.cursor := by
  induction n generalizing st with
  | zero => rfl
  | succ n ih => rw [pushN, ih, push_next_cursor]

theorem pushN_queue_length (n : Nat) (st : PMI α) :
    (pushN n st).queue.length = st.queue.length + n := by
  simp [pushN_queue]

theorem pushN_add (a b : Nat) (st : PMI α) :
    pushN (a + b) st = pushN b (pushN a st) := by
  induction a generalizing st with
  | zero => simp [pushN]
  | succ a ih =>
    have : a + 1 + b = (a + b) + 1 := by omega
    rw [this, pushN, pushN, ih]

theorem pushChunks_eq (c : Nat) (st : PMI α) :
    pushChunks c st = pushN (500 * c) st := by
  induction c generalizing st with
  | zero => simp [pushChunks, pushN]
  | succ c ih =>
    have : 500 * (c + 1) = 500 + 500 * c := by ring
    rw [pushChunks, ih, this, pushN_add]

/-- The divide-and-conquer fill is the same `required + 1 - len` pulls as the
one-element-at-a-time loop, whenever it is invoked in its call context
(`queue.len() ≤ required_elements`). -/
theorem fill_queue_divide_conquer_eq (required : Nat) (st : PMI α)
    (h : st.queue.length ≤ required) :
    fill_queue_divide_conquer required st =
      pushN (required + 1 - st.queue.length) st := by
  simp only [fill_queue_divide_conquer]
  by_cases h5 : required - st.queue.length + 1 > 500
  · rw [if_pos h5, pushChunks_eq, ← pushN_add]
    congr 1
    omega
  · rw [if_neg h5]

/-- `fill_queue` always performs exactly the unbatched number of pulls:
batching changes nothing about the resulting state. -/
theorem fill_queue_eq (required : Nat) (st : PMI α) :
    fill_queue required st =
      if st.queue.length ≤ required then
        pushN (required + 1 - st.queue.length) st
      else st := by
  simp only [fill_queue]
  by_cases h : st.queue.length ≤ required
  · rw [if_pos h, if_pos h]
    by_cases h2 : required - st.queue.length + 1 > 1000
    · rw [if_pos h2]
      exact fill_queue_divide_conquer_eq required st h
    · rw [if_neg h2]
  · rw [if_neg h, if_neg h]

theorem fill_queue_length (required : Nat) (st : PMI α) :
    (fill_queue required st).queue.length = max st.queue.length (required + 1) := by
  rw [fill_queue_eq]
  split
  · rw [pushN_queue_length]; omega
  · omega

theorem fill_queue_cursor (required : Nat) (st : PMI α) :
    (fill_queue required st).cursor = st.cursor := by
  rw [fill_queue_eq]
  split
  · rw [pushN_cursor]
  · rfl

/-- The chunked `while` loop of `fill_queue_in_chunks` performs exactly
`target_end - current_pos` pulls. -/
theorem fill_queue_in_chunks_eq (chunk cur tgt : Nat) (st : PMI α) (hc : 0 < chunk) :
    fill_queue_in_chunks chunk cur tgt st = pushN (tgt - cur) st := by
  by_cases h : cur < tgt
  · rw [fill_queue_in_chunks]
    rw [dif_pos ⟨h, hc⟩]
    have hrec := fill_queue_in_chunks_eq chunk (min (cur + chunk) tgt) tgt
      (pushN (min (cur + chunk) tgt - cur) st) hc
    rw [hrec, ← pushN_add]
    congr 1
    omega
  · have h0 : tgt - cur = 0 := by omega
    rw [fill_queue_in_chunks, dif_neg (by omega), h0, pushN]
termination_by tgt - cur
decreasing_by omega

/-! ## Preservation of the contiguity invariant -/

theorem wfAt_of_fields_eq {S : List α} {k : Nat} {st st' : PMI α}
    (hq : st'.queue = st.queue) (hi : st'.iterator = st.iterator)
    (h : wfAt S k st) : wfAt S k st' := by
  obtain ⟨h1, h2⟩ := h
  exact ⟨by rw [hq]; exact h1, by rw [hi, hq]; exact h2⟩

theorem wfAt_pushN {S : List α} {k : Nat} {st : PMI α} (n : Nat)
    (h : wfAt S k st) : wfAt S k (pushN n st) := by
  obtain ⟨h1, h2⟩ := h
  constructor
  · intro i hi
    rw [pushN_queue] at hi ⊢
    by_cases hiL : i < st.queue.length
    · rw [List.getElem?_append_left hiL]
      exact h1 i hiL
    · have hiL' : st.queue.length ≤ i := by omega
      rw [List.getElem?_append_right hiL', List.getElem?_map]
      have hin : i - st.queue.length < n := by
        simp only [List.length_append, List.length_map, List.length_range] at hi
        omega
      rw [List.getElem?_range hin]
      simp only [Option.map_some']
      rw [h2, List.getElem?_drop]
      congr 2
      omega
  · rw [pushN_iterator, pushN_queue_length, h2, List.drop_drop]
    congr 1
    omega

theorem wfAt_fill_queue {S : List α} {k : Nat} {st : PMI α} (r : Nat)
    (h : wfAt S k st) : wfAt S k (fill_queue r st) := by
  rw [fill_queue_eq]
  split
  · exact wfAt_pushN _ h
  · exact h

theorem wfAt_fill_queue_in_chunks {S : List α} {k : Nat} {st : PMI α}
    {chunk cur tgt : Nat} (hc : 0 < chunk)
    (h : wfAt S k st) : wfAt S k (fill_queue_in_chunks chunk cur tgt st) := by
  rw [fill_queue_in_chunks_eq _ _ _ _ hc]
  exact wfAt_pushN _ h

theorem wfAt_next {S : List α} {k : Nat} {st : PMI α}
    (h : wfAt S k st) : wfAt S (k + 1) (next st).2 := by
  obtain ⟨it, q, c⟩ := st
  obtain ⟨h1, h2⟩ := h
  simp only at h1 h2
  cases q with
  | cons s rest =>
    refine ⟨?_, ?_⟩
    · intro i hi
      simp only [next, decrement_cursor, List.length_cons] at hi ⊢
      have := h1 (i + 1) (by simp; omega)
      simp only [List.getElem?_cons_succ] at this
      rw [this]
      congr 2
      omega
    · simp only [next, decrement_cursor, List.length_cons] at h2 ⊢
      rw [h2]
      congr 1
      omega
  | nil =>
    simp only [List.length_nil, Nat.add_zero] at h2
    cases it with
    | nil =>
      refine ⟨?_, ?_⟩
      · intro i hi
        simp [next, decrement_cursor] at hi
      · simp only [next, decrement_cursor, List.length_nil, Nat.add_zero]
        have hlen : S.length ≤ k := List.drop_eq_nil_iff.mp h2.symm
        rw [eq_comm, List.drop_eq_nil_iff]
        omega
    | cons x xs =>
      refine ⟨?_, ?_⟩
      · intro i hi
        simp [next, decrement_cursor] at hi
      · simp only [next, decrement_cursor, List.length_nil, Nat.add_zero]
        have : xs = (S.drop k).tail := by rw [← h2, List.tail_cons]
        rw [this, List.tail_drop]

theorem wfAt_truncate {S : List α} {k : Nat} {st : PMI α}
    (h : wfAt S k st) : wfAt S (k + st.cursor) (truncate_iterator_to_cursor st) := by
  obtain ⟨h1, h2⟩ := h
  simp only [truncate_iterator_to_cursor]
  split
  · constructor
    · intro i hi
      simp only [List.length_drop] at hi
      simp only [List.getElem?_drop]
      have := h1 (st.cursor + i) (by omega)
      rw [this]
      congr 2
      omega
    · simp only [List.length_drop]
      rw [h2]
      congr 1
      omega
  · constructor
    · intro i hi
      simp at hi
    · simp only [List.length_nil, Nat.add_zero]
      rw [h2, List.drop_drop]
      congr 1
      omega

theorem wf_fill_queue {S : List α} {st : PMI α} (r : Nat)
    (h : wf S st) : wf S (fill_queue r st) := by
  obtain ⟨k, hk⟩ := h
  exact ⟨k, wfAt_fill_queue r hk⟩

theorem wf_of_fields_eq {S : List α} {st st' : PMI α}
    (hq : st'.queue = st.queue) (hi : st'.iterator = st.iterator)
    (h : wf S st) : wf S st' := by
  obtain ⟨k, hk⟩ := h
  exact ⟨k, wfAt_of_fields_eq hq hi hk⟩

theorem wf_peek_snd {S : List α} {st : PMI α}
    (h : wf S st) : wf S (peek st).2 := by
  simpa only [peek] using wf_fill_queue st.cursor h

theorem wf_peek_nth_snd {S : List α} {st : PMI α} (n : Nat)
    (h : wf S st) : wf S (peek_nth n st).2 := by
  simpa only [peek_nth] using wf_fill_queue n h

theorem wf_next_snd {S : List α} {st : PMI α}
    (h : wf S st) : wf S (next st).2 := by
  obtain ⟨k, hk⟩ := h
  exact ⟨k + 1, wfAt_next hk⟩

theorem wf_truncate {S : List α} {st : PMI α}
    (h : wf S st) : wf S (truncate_iterator_to_cursor st) := by
  obtain ⟨k, hk⟩ := h
  exact ⟨k + st.cursor, wfAt_truncate hk⟩

theorem wf_cursor_update {S : List α} {st : PMI α} (c : Nat)
    (h : wf S st) : wf S { st with cursor := c } :=
  wf_of_fields_eq rfl rfl h

theorem wf_increment_cursor {S : List α} {st : PMI α}
    (h : wf S st) : wf S (increment_cursor st) :=
  wf_of_fields_eq rfl rfl h

theorem wf_advance_cursor_while_steps {S : List α} (pred : Option α → Bool)
    (fuel : Nat) :
    ∀ st : PMI α, wf S st → wf S (advance_cursor_while_steps pred fuel st) := by
  induction fuel with
  | zero => intro st h; exact h
  | succ fuel ih =>
    intro st h
    simp only [advance_cursor_while_steps]
    split
    · exact ih _ (wf_increment_cursor (wf_peek_snd h))
    · exact wf_peek_snd h

theorem wf_move_cursor_back_snd {S : List α} {st : PMI α}
    (h : wf S st) : wf S (move_cursor_back st).2 := by
  simp only [move_cursor_back]
  split
  · exact wf_of_fields_eq rfl rfl h
  · exact h

theorem wf_move_cursor_back_by_snd {S : List α} {st : PMI α} (n : Nat)
    (h : wf S st) : wf S (move_cursor_back_by n st).2 := by
  simp only [move_cursor_back_by]
  split
  · exact h
  · exact wf_cursor_update _ h

theorem wf_peek_previous_snd {S : List α} {st : PMI α}
    (h : wf S st) : wf S (peek_previous st).2 := by
  simp only [peek_previous]
  split
  · exact wf_peek_snd (wf_move_cursor_back_snd h)
  · exact h

theorem wf_peek_backward_snd {S : List α} {st : PMI α} (n : Nat)
    (h : wf S st) : wf S (peek_backward n st).2 := by
  simp only [peek_backward, move_cursor_back_by]
  split
  · split
    · simp only []
      exact wf_peek_snd h
    · exact h
  · split
    · exact wf_peek_snd (wf_cursor_update _ h)
    · exact wf_cursor_update _ h

theorem wf_peek_range_state {S : List α} {st : PMI α} (start stop : Nat)
    (h : wf S st) : wf S (((peek_range start stop st).map Prod.snd).getD st) := by
  have hchunk : ∀ chunk cur tgt, 0 < chunk →
      wf S (fill_queue_in_chunks chunk cur tgt st) :=
    fun chunk cur tgt hc => h.imp fun _ hk => wfAt_fill_queue_in_chunks hc hk
  simp only [peek_range, peek_range_optimized]
  repeat' split
  all_goals
    simp only [Option.map_some', Option.map_none', Option.getD_some, Option.getD_none]
  all_goals
    first
      | exact h
      | exact wf_fill_queue stop h
      | exact hchunk _ _ _ (by split <;> norm_num)
      | exact hchunk _ _ _ (by norm_num)

theorem wf_advance_cursor_by {S : List α} {st : PMI α} (n : Nat)
    (h : wf S st) : wf S (advance_cursor_by n st) := by
  simp only [advance_cursor_by]
  split
  · exact wf_cursor_update _ h
  · exact h

theorem wf_advance_cursor_by_optimized {S : List α} {st : PMI α} (n : Nat)
    (h : wf S st) : wf S (advance_cursor_by_optimized n st) := by
  simp only [advance_cursor_by_optimized, optimize_queue_for_cursor]
  repeat' split
  all_goals
    first
      | exact h
      | exact wf_of_fields_eq rfl rfl (wf_fill_queue _ h)
      | exact wf_of_fields_eq rfl rfl h

theorem wf_peek_first_snd {S : List α} {st : PMI α}
    (h : wf S st) : wf S (peek_first st).2 :=
  wf_peek_nth_snd 0 h

/-- Every public operation maps a well-formed state to a well-formed state:
the queue always buffers a contiguous run of source positions starting at
the consumption point. -/
theorem wf_step {S : List α} {st : PMI α} (op : Op α)
    (h : wf S st) : wf S (step op st) := by
  cases op with
  | advanceCursor => exact wf_increment_cursor h
  | advanceCursorBy n => exact wf_advance_cursor_by n h
  | advanceCursorByOptimized n => exact wf_advance_cursor_by_optimized n h
  | advanceCursorWhile pred fuel => exact wf_advance_cursor_while_steps pred fuel st h
  | moveCursorBack => exact wf_move_cursor_back_snd h
  | moveCursorBackBy n => exact wf_move_cursor_back_by_snd n h
  | moveCursorBackOrReset n =>
    simp only [step, move_cursor_back_or_reset]
    split
    · exact wf_cursor_update _ h
    · exact wf_cursor_update _ h
  | moveNth n => exact wf_cursor_update _ h
  | resetCursor => exact wf_cursor_update _ h
  | peekOp => exact wf_peek_snd h
  | peekNth n => exact wf_peek_nth_snd n h
  | peekFirst => exact wf_peek_first_snd h
  | peekNext => exact wf_peek_snd (wf_increment_cursor h)
  | peekPrevious => exact wf_peek_previous_snd h
  | peekForward n => exact wf_peek_snd (wf_advance_cursor_by n h)
  | peekBackward n => exact wf_peek_backward_snd n h
  | peekBackwardOrFirst n =>
    simp only [step, peek_backward_or_first]
    split
    · exact wf_peek_snd (wf_move_cursor_back_by_snd n h)
    · exact wf_peek_snd (wf_cursor_update _ (wf_move_cursor_back_by_snd n h))
  | peekRange start stop => exact wf_peek_range_state start stop h
  | peekAmount n => exact wf_peek_range_state 0 n h
  | nextOp => exact wf_next_snd h
  | nextIf func =>
    simp only [step, next_if]
    split
    · split
      · exact wf_next_snd (wf_peek_first_snd h)
      · exact wf_peek_first_snd h
    · exact wf_peek_first_snd h
  | truncate => exact wf_truncate h

/-- A freshly wrapped source is well formed at consumption point 0. -/
theorem wf_init (S : List α) : wf S (init S) := by
  refine ⟨0, ?_, ?_⟩
  · intro i hi
    simp [init] at hi
  · simp [init]

/-! ## The value a peek returns -/

/-- The value `peek_nth(n)` returns: the buffered slot at `n` when `n` is
buffered, otherwise position `n - queue.length` of the unpulled source. -/
theorem peek_nth_fst (n : Nat) (st : PMI α) :
    (peek_nth n st).1 =
      if n < st.queue.length then (st.queue[n]?).bind id
      else st.iterator[n - st.queue.length]? := by
  simp only [peek_nth, fill_queue_eq]
  by_cases hn : n < st.queue.length
  · rw [if_neg (by omega), if_pos hn]
  · rw [if_pos (by omega), if_neg hn, pushN_queue]
    rw [List.getElem?_append_right (by omega), List.getElem?_map,
      List.getElem?_range (by omega)]
    simp

/-- Same statement for `peek()` at the cursor. -/
theorem peek_fst (st : PMI α) :
    (peek st).1 =
      if st.cursor < st.queue.length then (st.queue[st.cursor]?).bind id
      else st.iterator[st.cursor - st.queue.length]? := by
  have : (peek st).1 = (peek_nth st.cursor st).1 := by
    simp only [peek, peek_nth]
  rw [this, peek_nth_fst]

/-- `peek_range` always succeeds for `start ≤ stop`, returning the slice
`queue[start..stop]` of a state whose queue now holds at least `stop`
slots and that differs from the input state only by pulls appended at the
back. -/
theorem peek_range_some {st : PMI α} {start stop : Nat} (h : start ≤ stop) :
    ∃ st', peek_range start stop st =
        some ((st'.queue.drop start).take (stop - start), st') ∧
      stop ≤ st'.queue.length ∧ (st' = st ∨ ∃ m, st' = pushN m st) := by
  simp only [peek_range, peek_range_optimized, if_pos h]
  by_cases hbig : stop - start > 2000
  · rw [if_pos hbig]
    by_cases hfill : stop > st.queue.length
    · rw [if_pos hfill]
      rw [fill_queue_in_chunks_eq _ _ _ _ (by split <;> [norm_num; split <;> norm_num])]
      have hlen : (pushN (stop - st.queue.length) st).queue.length = stop := by
        rw [pushN_queue_length]; omega
      rw [if_pos (by omega)]
      exact ⟨_, rfl, by omega, Or.inr ⟨_, rfl⟩⟩
    · rw [if_neg hfill, if_pos (by omega)]
      exact ⟨_, rfl, by omega, Or.inl rfl⟩
  · rw [if_neg hbig]
    by_cases hfill : stop > st.queue.length
    · rw [if_pos hfill]
      have hlen : (fill_queue stop st).queue.length = max st.queue.length (stop + 1) :=
        fill_queue_length stop st
      rw [if_pos (by omega)]
      refine ⟨_, rfl, by omega, ?_⟩
      rw [fill_queue_eq, if_pos (by omega)]
      exact Or.inr ⟨_, rfl⟩
    · rw [if_neg hfill, if_pos (by omega)]
      exact ⟨_, rfl, by omega, Or.inl rfl⟩

/-- Any `fill_queue` call is byte-for-byte the unbatched fill. -/
theorem fill_queue_eq_unbatched (r : Nat) (st : PMI α) :
    fill_queue r st = fill_queue_unbatched r st := by
  rw [fill_queue_eq]
  rfl

/-- For small ranges (at most 2000) `peek_range` and the unbatched
reference coincide exactly. -/
theorem peek_range_small_eq_unbatched {start stop : Nat} (st : PMI α)
    (h : start ≤ stop) (hbig : ¬stop - start > 2000) :
    peek_range start stop st = peek_range_unbatched start stop st := by
  simp only [peek_range, peek_range_unbatched, if_pos h, if_neg hbig]
  rw [fill_queue_eq_unbatched]

theorem peek_range_unbatched_some {st : PMI α} {start stop : Nat} (h : start ≤ stop) :
    ∃ st', peek_range_unbatched start stop st =
        some ((st'.queue.drop start).take (stop - start), st') ∧
      stop ≤ st'.queue.length := by
  simp only [peek_range_unbatched, fill_queue_unbatched, if_pos h]
  by_cases hfill : stop > st.queue.length
  · rw [if_pos hfill, if_pos (show st.queue.length ≤ stop by omega),
      if_pos (show stop ≤ (pushN (stop + 1 - st.queue.length) st).queue.length by
        rw [pushN_queue_length]; omega)]
    exact ⟨_, rfl, by rw [pushN_queue_length]; omega⟩
  · rw [if_neg hfill, if_pos (show stop ≤ st.queue.length by omega)]
    exact ⟨_, rfl, by omega⟩

/-! ## Claims -/

/-- C1 (code bug): the blanket `impl ExactSizeIterator for PeekMoreIterator`
uses the default `len()`, which reads `size_hint()`; but the `Iterator` impl
never forwards `size_hint`, so the adapter reports the default `(0, None)`
and the default `len()` trips its `assert_eq!(upper, Some(lower))` — it
panics (modelled as `none`) on every state instead of reporting the
remaining count (3 for a fresh adapter over `[1, 2, 3]`). -/
theorem C1_exact_size_len_is_broken :
    (∀ st : PMI Nat, exact_size_len st = none) ∧
    remaining (init [1, 2, 3]) = 3 ∧
    exact_size_len (init [1, 2, 3]) ≠ some (remaining (init [1, 2, 3])) := by
  refine ⟨fun st => rfl, rfl, by decide⟩

/-- C2 (code bug): `advance_cursor()` saturates at `usize::MAX` and
`advance_cursor_by(0)` is a no-op, as claimed; but `advance_cursor_by(n)`
increments with an unchecked `+=`: at cursor = `usize::MAX`, advancing by 1
wraps to 0 (release builds; debug builds panic) instead of saturating at
`min(c + n, usize::MAX) = usize::MAX`. -/
theorem C2_advance_cursor_by_does_not_saturate :
    (∀ st : PMI Nat, (advance_cursor st).cursor = min (st.cursor + 1) USIZE_MAX) ∧
    (∀ st : PMI Nat, advance_cursor_by 0 st = st) ∧
    (advance_cursor_by 1
        { iterator := ([] : List Nat), queue := [], cursor := USIZE_MAX }).cursor = 0 ∧
    min (USIZE_MAX + 1) USIZE_MAX ≠ 0 := by
  refine ⟨fun st => rfl, fun st => rfl, ?_, by decide⟩
  simp only [advance_cursor_by, if_pos (by norm_num : (0:Nat) < 1)]
  show (USIZE_MAX + 1) % USIZE = 0
  simp [USIZE_MAX, USIZE]

/-- C6: `truncate_iterator_to_cursor()` always resets the cursor to 0 and
never changes the value the next `peek()` returns — in both the
`cursor < queue.length` (drop a queue prefix) and the `cursor ≥
queue.length` (pull-and-discard from the source, clear the queue) cases. -/
theorem C6_truncate_preserves_next_peek (st : PMI α) :
    (truncate_iterator_to_cursor st).cursor = 0 ∧
    (peek (truncate_iterator_to_cursor st)).1 = (peek st).1 := by
  constructor
  · simp only [truncate_iterator_to_cursor]
    split <;> rfl
  · rw [peek_fst, peek_fst]
    simp only [truncate_iterator_to_cursor]
    by_cases hc : st.cursor < st.queue.length
    · rw [if_pos hc]
      simp only [List.length_drop]
      rw [if_pos hc, if_pos (by omega), List.getElem?_drop]
      simp
    · rw [if_neg hc]
      simp only [List.length_nil]
      rw [if_neg hc, if_neg (by omega), List.getElem?_drop]
      simp

/-- C8: each backward cursor operation (`move_cursor_back`,
`move_cursor_back_by(n)`, `peek_previous`) fails with the recoverable
element-already-consumed error exactly when the move would cross below
offset 0 (`cursor < 1`, resp. `cursor < n`), and on that error the whole
adapter state (cursor, queue and source) is returned unchanged. -/
theorem C8_backward_ops_error_iff_and_preserve (st : PMI α) (n : Nat) :
    ((move_cursor_back st).1 = false ↔ st.cursor < 1) ∧
    ((move_cursor_back st).1 = false → (move_cursor_back st).2 = st) ∧
    ((move_cursor_back_by n st).1 = false ↔ st.cursor < n) ∧
    ((move_cursor_back_by n st).1 = false → (move_cursor_back_by n st).2 = st) ∧
    ((peek_previous st).1 = none ↔ st.cursor < 1) ∧
    ((peek_previous st).1 = none → (peek_previous st).2 = st) := by
  refine ⟨?_, ?_, ?_, ?_, ?_, ?_⟩ <;>
    simp only [move_cursor_back, move_cursor_back_by, peek_previous] <;>
    split <;> simp_all <;> omega

/-- C3 counterexample: on a fresh adapter over the empty source,
`peek_range(0, 2001)` takes the chunked path and ends with a queue of
2001 slots, while the unbatched path ends with 2002 slots: the resulting
queues are not byte-identical (their lengths differ). -/
theorem C3_counterexample :
    ((peek_range 0 2001 (init ([] : List Nat))).map fun p => p.2.queue.length)
      = some 2001 ∧
    ((peek_range_unbatched 0 2001 (init ([] : List Nat))).map fun p => p.2.queue.length)
      = some 2002 ∧
    (peek_range 0 2001 (init ([] : List Nat))).map (fun p => p.2.queue) ≠
      (peek_range_unbatched 0 2001 (init ([] : List Nat))).map fun p => p.2.queue := by
  have hq0 : (init ([] : List Nat)).queue.length = 0 := rfl
  have hlenA : (pushN (2001 - 0) (init ([] : List Nat))).queue.length = 2001 := by
    rw [pushN_queue_length, hq0]
  have hlenB : (pushN (2001 + 1 - 0) (init ([] : List Nat))).queue.length = 2002 := by
    rw [pushN_queue_length, hq0]
  have hA : ((peek_range 0 2001 (init ([] : List Nat))).map fun p => p.2.queue.length)
      = some 2001 := by
    simp only [peek_range, peek_range_optimized, hq0]
    rw [if_pos (show (0 : Nat) ≤ 2001 by norm_num),
      if_pos (show 2001 - 0 > 2000 by norm_num),
      if_pos (show 2001 > 0 by norm_num),
      if_neg (show ¬2001 - 0 > 10000 by norm_num),
      if_neg (show ¬2001 - 0 > 5000 by norm_num),
      fill_queue_in_chunks_eq _ _ _ _ (show (0 : Nat) < 500 by norm_num),
      if_pos (show 2001 ≤ (pushN (2001 - 0) (init ([] : List Nat))).queue.length by
        rw [hlenA])]
    simp only [Option.map_some']
    rw [hlenA]
  have hB : ((peek_range_unbatched 0 2001 (init ([] : List Nat))).map
      fun p => p.2.queue.length) = some 2002 := by
    simp only [peek_range_unbatched, fill_queue_unbatched, hq0]
    rw [if_pos (show (0 : Nat) ≤ 2001 by norm_num),
      if_pos (show 2001 > 0 by norm_num),
      if_pos (show (0 : Nat) ≤ 2001 by norm_num),
      if_pos (show 2001 ≤ (pushN (2001 + 1 - 0) (init ([] : List Nat))).queue.length by
        rw [hlenB]; norm_num)]
    simp only [Option.map_some']
    rw [hlenB]
  refine ⟨hA, hB, fun heq => ?_⟩
  have hmap := congrArg (Option.map List.length) heq
  rw [Option.map_map, Option.map_map] at hmap
  have hmap' : ((peek_range 0 2001 (init ([] : List Nat))).map fun p => p.2.queue.length)
      = ((peek_range_unbatched 0 2001 (init ([] : List Nat))).map
          fun p => p.2.queue.length) := hmap
  rw [hA, hB] at hmap'
  exact absurd hmap' (by decide)

/-- C3 amended: `fill_queue`'s divide-and-conquer path leaves a state
byte-identical to unbatched one-element-at-a-time filling; `peek_range`'s
chunked path returns exactly the view the unbatched path returns, and the
unbatched resulting state is the chunked resulting state with at most one
extra pull appended at the back of the queue (the unbatched `fill_queue(end)`
fills through index `end` inclusive, the chunked fill stops at `end`
exclusive). -/
theorem C3_batched_fill_refines_unbatched :
    (∀ (r : Nat) (st : PMI α), fill_queue r st = fill_queue_unbatched r st) ∧
    (∀ (r : Nat) (st : PMI α), st.queue.length ≤ r →
      fill_queue_divide_conquer r st = fill_queue_unbatched r st) ∧
    (∀ (start stop : Nat) (st : PMI α), start ≤ stop →
      ∃ viewA stA viewB stB,
        peek_range start stop st = some (viewA, stA) ∧
        peek_range_unbatched start stop st = some (viewB, stB) ∧
        viewA = viewB ∧ (stB = stA ∨ stB = pushN 1 stA)) := by
  refine ⟨fill_queue_eq_unbatched, ?_, ?_⟩
  · intro r st h
    rw [fill_queue_divide_conquer_eq r st h]
    simp only [fill_queue_unbatched, if_pos h]
  · intro start stop st h
    by_cases hbig : stop - start > 2000
    · by_cases hfill : stop > st.queue.length
      · -- chunked path: the batched state is one pull short of the unbatched one
        have hA : peek_range start stop st =
            some (((pushN (stop - st.queue.length) st).queue.drop start).take
                (stop - start), pushN (stop - st.queue.length) st) := by
          simp only [peek_range, peek_range_optimized, if_pos h, if_pos hbig,
            if_pos hfill]
          rw [fill_queue_in_chunks_eq _ _ _ _ (by split <;> [norm_num; split <;> norm_num])]
          rw [if_pos (by rw [pushN_queue_length]; omega)]
        have hB : peek_range_unbatched start stop st =
            some (((pushN (stop + 1 - st.queue.length) st).queue.drop start).take
                (stop - start), pushN (stop + 1 - st.queue.length) st) := by
          simp only [peek_range_unbatched, fill_queue_unbatched, if_pos h,
            if_pos hfill, if_pos (by omega : st.queue.length ≤ stop)]
          rw [if_pos (by rw [pushN_queue_length]; omega)]
        have hsplit : pushN (stop + 1 - st.queue.length) st =
            pushN 1 (pushN (stop - st.queue.length) st) := by
          rw [← pushN_add]
          congr 1
          omega
        have hlenA : (pushN (stop - st.queue.length) st).queue.length = stop := by
          rw [pushN_queue_length]; omega
        refine ⟨_, _, _, _, hA, hB, ?_, Or.inr hsplit⟩
        rw [hsplit]
        have hq1 : (pushN 1 (pushN (stop - st.queue.length) st)).queue =
            (pushN (stop - st.queue.length) st).queue ++
              [(pushN (stop - st.queue.length) st).iterator[0]?] := by
          show (pushN 0 (push_next_to_queue _)).queue = _
          simp only [pushN, push_next_queue]
        rw [hq1, List.drop_append_of_le_length (by omega),
          List.take_append_of_le_length (by simp [List.length_drop]; omega)]
      · -- large range but the queue is already long enough: both paths do nothing
        have hA : peek_range start stop st =
            some ((st.queue.drop start).take (stop - start), st) := by
          simp only [peek_range, peek_range_optimized, if_pos h, if_pos hbig,
            if_neg hfill]
          rw [if_pos (by omega)]
        have hB : peek_range_unbatched start stop st =
            some ((st.queue.drop start).take (stop - start), st) := by
          simp only [peek_range_unbatched, if_pos h, if_neg hfill]
          rw [if_pos (by omega)]
        exact ⟨_, _, _, _, hA, hB, rfl, Or.inl rfl⟩
    · -- small range: the two functions agree definitionally
      rw [peek_range_small_eq_unbatched st h hbig]
      obtain ⟨st', heq, -⟩ := @peek_range_unbatched_some _ st _ _ h
      exact ⟨_, st', _, st', heq, heq, rfl, Or.inl rfl⟩

/-- Witness for C3 at concrete inputs: batched and unbatched fills agree on
a fresh adapter over `[9]`, and `peek_range(0, 2)` succeeds there. -/
theorem C3_batched_fill_witness :
    fill_queue 3 (init ([9] : List Nat)) = fill_queue_unbatched 3 (init [9]) ∧
    fill_queue_divide_conquer 3 (init ([9] : List Nat)) = fill_queue_unbatched 3 (init [9]) ∧
    (peek_range 0 2 (init ([9] : List Nat))).isSome = true := by
  obtain ⟨h1, h2, h3⟩ := @C3_batched_fill_refines_unbatched Nat
  refine ⟨h1 3 (init [9]), h2 3 (init [9]) (by simp [init]), ?_⟩
  obtain ⟨vA, sA, vB, sB, hA, -, -, -⟩ := h3 0 2 (init [9]) (by norm_num)
  rw [hA]
  rfl

/-- C5 counterexample: `next_if(|x| x == 99)` on a fresh adapter over `[1]`
returns nothing, but it does mutate the adapter state: `peek_first`
buffers the first element, so the queue grows from `[]` to `[some 1]` (and
the source shrinks accordingly). -/
theorem C5_counterexample :
    (next_if (fun x => decide (x = 99)) (init ([1] : List Nat))).1 = none ∧
    (next_if (fun x => decide (x = 99)) (init ([1] : List Nat))).2 ≠ init [1] := by
  decide

/-- C5 amended: `next_if` inspects absolute offset 0 independently of the
cursor; when the predicate accepts that element it performs a full `next()`
and returns the consumed value; when it rejects it (or there is no
element), it returns nothing, leaves the cursor and every `peek_nth` value
unchanged, and the state after the following `next()` is identical — the
only state change is that the inspected element may have been moved from
the source into the queue buffer. -/
theorem C5_next_if_frame (func : α → Bool) (st : PMI α) :
    (∀ c, (peek_first { st with cursor := c }).1 = (peek_first st).1) ∧
    (∀ x, (peek_first st).1 = some x → func x = true →
      next_if func st = next (peek_first st).2 ∧ (next_if func st).1 = some x) ∧
    ((∀ x, (peek_first st).1 = some x → func x = false) →
      (next_if func st).1 = none ∧
      (next_if func st).2.cursor = st.cursor ∧
      (∀ n, (peek_nth n (next_if func st).2).1 = (peek_nth n st).1) ∧
      next (next_if func st).2 = next st) := by
  refine ⟨?_, ?_, ?_⟩
  · intro c
    simp only [peek_first, peek_nth_fst]
  · intro x hx hfunc
    simp only [next_if, peek_first] at hx ⊢
    rw [hx]
    dsimp only
    rw [hfunc, if_pos rfl]
    refine ⟨rfl, ?_⟩
    -- the popped front slot is exactly the inspected element
    have hq : (peek_nth 0 st).2.queue[0]? = some (some x) := by
      simp only [peek_nth] at hx ⊢
      cases hq0 : (fill_queue 0 st).queue[0]? with
      | none => rw [hq0] at hx; simp at hx
      | some s =>
        rw [hq0] at hx
        simp only [Option.some_bind, id] at hx
        rw [hx]
    cases hqq : (peek_nth 0 st).2.queue with
    | nil => rw [hqq] at hq; simp at hq
    | cons s rest =>
      rw [hqq] at hq
      simp only [List.getElem?_cons_zero] at hq
      obtain rfl : s = some x := by injection hq
      simp only [next, hqq]
  · intro hrej
    have hval : ∀ v, (peek_first st).1 = v →
        (next_if func st).1 = none ∧ (next_if func st).2 = (peek_first st).2 := by
      intro v hv
      cases v with
      | none =>
        simp only [next_if]
        rw [show (peek_first st).1 = none from hv]
        exact ⟨rfl, rfl⟩
      | some x =>
        simp only [next_if]
        rw [show (peek_first st).1 = some x from hv]
        simp [hrej x hv]
    obtain ⟨h1, h2⟩ := hval _ rfl
    refine ⟨h1, ?_, ?_, ?_⟩
    · rw [h2]
      simp only [peek_first, peek_nth, fill_queue_cursor]
    · intro n
      rw [h2]
      by_cases hqe : st.queue.length = 0
      · -- the rejected branch still buffered one pull
        have hst0 : (peek_first st).2 = push_next_to_queue st := by
          simp only [peek_first, peek_nth, fill_queue_eq]
          rw [if_pos (show st.queue.length ≤ 0 by omega),
            show 0 + 1 - st.queue.length = 1 by omega]
          rfl
        rw [hst0, peek_nth_fst, peek_nth_fst, push_next_queue, push_next_iterator]
        rw [show st.queue = [] from List.length_eq_zero.mp hqe]
        simp only [List.nil_append, List.length_singleton, List.length_nil]
        rcases n with _ | m
        · simp
        · rw [if_neg (by omega), if_neg (by omega), List.getElem?_drop]
          congr 1
          omega
      · have hst0 : (peek_first st).2 = st := by
          simp only [peek_first, peek_nth, fill_queue_eq]
          rw [if_neg (by omega)]
        rw [hst0]
    · rw [h2]
      by_cases hqe : st.queue.length = 0
      · have hst0 : (peek_first st).2 = push_next_to_queue st := by
          simp only [peek_first, peek_nth, fill_queue_eq]
          rw [if_pos (show st.queue.length ≤ 0 by omega),
            show 0 + 1 - st.queue.length = 1 by omega]
          rfl
        obtain ⟨it, q, c⟩ := st
        obtain rfl : q = [] := List.length_eq_zero.mp hqe
        rw [hst0]
        cases it with
        | nil => rfl
        | cons y ys => rfl
      · have hst0 : (peek_first st).2 = st := by
          simp only [peek_first, peek_nth, fill_queue_eq]
          rw [if_neg (by omega)]
        rw [hst0]

/-- Witness for C5: the accepting branch at a fresh adapter over `[1]`
consumes and returns the first element. -/
theorem C5_next_if_witness :
    (next_if (fun x => decide (x = 1)) (init ([1] : List Nat))).1 = some 1 := by
  obtain ⟨-, hacc, -⟩ := C5_next_if_frame (fun x => decide (x = 1)) (init ([1] : List Nat))
  exact (hacc 1 (by decide) (by decide)).2

/-- On a state buffering `j` matched items with the cursor at `j` and `m`
items left in the source, the recursion of `advance_cursor_while` with an
all-accepting predicate performs exactly `m + 1` nested calls. -/
theorem advance_depth_on_replicate (m : Nat) :
    ∀ (j fuel : Nat), j + m < USIZE → m + 1 ≤ fuel →
      advance_cursor_while_depth (fun v : Option Nat => v.isSome) fuel
        ⟨List.replicate m 0, List.replicate j (some 0), j⟩ = some (m + 1) := by
  have hUM : USIZE_MAX = USIZE - 1 := rfl
  induction m with
  | zero =>
    intro j fuel hU hf
    obtain ⟨f, rfl⟩ : ∃ f, fuel = f + 1 := ⟨fuel - 1, by omega⟩
    rw [List.replicate_zero]
    have hpeek1 :
        (peek (⟨[], List.replicate j (some 0), j⟩ : PMI Nat)).1 = none := by
      rw [peek_fst]
      simp only [List.length_replicate]
      rw [if_neg (by omega)]
      simp
    simp [advance_cursor_while_depth, hpeek1]
  | succ m ih =>
    intro j fuel hU hf
    obtain ⟨f, rfl⟩ : ∃ f, fuel = f + 1 := ⟨fuel - 1, by omega⟩
    rw [List.replicate_succ]
    have hfill :
        fill_queue j (⟨0 :: List.replicate m 0, List.replicate j (some 0), j⟩ : PMI Nat)
          = ⟨List.replicate m 0, List.replicate (j + 1) (some 0), j⟩ := by
      rw [fill_queue_eq]
      rw [if_pos (by simp),
        show j + 1 - (List.replicate j (some (0 : Nat))).length = 1 by simp]
      show pushN 0 (push_next_to_queue _) = _
      simp only [pushN, push_next_to_queue]
      rw [← List.replicate_succ']
    have hpeek :
        peek (⟨0 :: List.replicate m 0, List.replicate j (some 0), j⟩ : PMI Nat)
          = (some 0, ⟨List.replicate m 0, List.replicate (j + 1) (some 0), j⟩) := by
      simp only [peek, hfill]
      rw [show (List.replicate (j + 1) (some (0 : Nat)))[j]? = some (some 0) by
        simp [List.getElem?_replicate]]
      rfl
    simp only [advance_cursor_while_depth, hpeek]
    simp only [Option.isSome_some]
    rw [if_pos trivial]
    have hinc :
        increment_cursor
            (⟨List.replicate m 0, List.replicate (j + 1) (some 0), j⟩ : PMI Nat)
          = ⟨List.replicate m 0, List.replicate (j + 1) (some 0), j + 1⟩ := by
      simp only [increment_cursor]
      rw [min_eq_left (by omega)]
    rw [hinc, ih (j + 1) f (by omega) (by omega)]
    rfl

/-- C4 (code bug): `advance_cursor_while` is implemented by direct
recursion (src 396-408), not iteratively: on a source of `n` elements that
all satisfy the predicate, the call needs recursion depth `n + 1` — the
stack use grows linearly with the length of the matching run, with no
bound. -/
theorem C4_advance_cursor_while_depth_linear (n : Nat) (h : n < USIZE) :
    advance_cursor_while_depth (fun v : Option Nat => v.isSome) (n + 2)
      (init (List.replicate n 0)) = some (n + 1) := by
  have := advance_depth_on_replicate n 0 (n + 2) (by omega) (by omega)
  simpa [init] using this

/-- Witness for C4: on a 3-element all-matching run, the recursion is 4
calls deep. -/
theorem C4_depth_witness :
    3 < USIZE ∧
    advance_cursor_while_depth (fun v : Option Nat => v.isSome) 5
      (init (List.replicate 3 0)) = some 4 :=
  ⟨by norm_num [USIZE],
   C4_advance_cursor_while_depth_linear 3 (by norm_num [USIZE])⟩

/-- The loop of `advance_cursor_while` runs for at most
`queue.length + source.length` iterations when the predicate rejects the
end-of-source marker: every continuing iteration peeks an actual item, and
those run out. -/
theorem advance_while_fuel_total (pred : Option α → Bool)
    (hpred : pred none = false) :
    ∀ (fuel : Nat) (st : PMI α),
      st.queue.length + st.iterator.length ≤ USIZE_MAX →
      st.queue.length + st.iterator.length - st.cursor < fuel →
      (advance_cursor_while_fuel pred fuel st).isSome = true := by
  intro fuel
  induction fuel with
  | zero =>
    intro st _ hm
    exact absurd hm (Nat.not_lt_zero _)
  | succ f ih =>
    intro st hb hm
    simp only [advance_cursor_while_fuel]
    by_cases hp : pred (peek st).1 = true
    · rw [if_pos hp]
      obtain ⟨x, hx⟩ : ∃ x, (peek st).1 = some x := by
        cases hv : (peek st).1 with
        | none =>
          rw [hv, hpred] at hp
          exact absurd hp (by simp)
        | some y => exact ⟨y, rfl⟩
      have hcur : (peek st).2.cursor = st.cursor := by
        simp only [peek, fill_queue_cursor]
      have hsum : st.cursor < st.queue.length + st.iterator.length ∧
          (peek st).2.queue.length + (peek st).2.iterator.length =
            st.queue.length + st.iterator.length := by
        rw [peek_fst] at hx
        by_cases hc : st.cursor < st.queue.length
        · have hsnd : (peek st).2 = st := by
            simp only [peek, fill_queue_eq]
            rw [if_neg (by omega)]
          rw [hsnd]
          exact ⟨by omega, rfl⟩
        · rw [if_neg hc] at hx
          have hlt : st.cursor - st.queue.length < st.iterator.length :=
            (List.getElem?_eq_some.mp hx).1
          have hsnd : (peek st).2 = pushN (st.cursor + 1 - st.queue.length) st := by
            simp only [peek, fill_queue_eq]
            rw [if_pos (by omega)]
          rw [hsnd, pushN_queue_length, pushN_iterator, List.length_drop]
          exact ⟨by omega, by omega⟩
      have hinc : increment_cursor (peek st).2 =
          { (peek st).2 with cursor := st.cursor + 1 } := by
        simp only [increment_cursor, hcur]
        rw [min_eq_left (by omega)]
      rw [hinc]
      exact ih _ (by simpa using hsum.2.le.trans hb) (by simp; omega)
    · rw [if_neg hp]
      rfl

/-- With a predicate that accepts everything — in particular the
end-of-source marker — the recursion of `advance_cursor_while` never
reaches its stopping branch: it runs out of any finite fuel. -/
theorem advance_while_const_true_diverges :
    ∀ (fuel : Nat) (st : PMI α),
      advance_cursor_while_fuel (fun _ => true) fuel st = none := by
  intro fuel
  induction fuel with
  | zero => intro st; rfl
  | succ f ih =>
    intro st
    simp only [advance_cursor_while_fuel]
    rw [if_pos trivial]
    exact ih _

/-- C10: on any state over a finite source (of machine-representable
size), `advance_cursor_while` terminates whenever the predicate rejects
the no-element marker — fuel `queue.length + source.length + 1` always
suffices; and with a predicate that accepts the no-element marker,
termination fails: the loop exhausts every finite fuel. -/
theorem C10_advance_while_termination_condition :
    (∀ (pred : Option α → Bool) (st : PMI α), pred none = false →
      st.queue.length + st.iterator.length ≤ USIZE_MAX →
      (advance_cursor_while_fuel pred
        (st.queue.length + st.iterator.length + 1) st).isSome = true) ∧
    (∀ (st : PMI α) (fuel : Nat),
      advance_cursor_while_fuel (fun _ => true) fuel st = none) := by
  constructor
  · intro pred st hpred hb
    exact advance_while_fuel_total pred hpred _ st hb (by omega)
  · intro st fuel
    exact advance_while_const_true_diverges fuel st

/-- Witness for C10: `Option.isSome` rejects the marker, and the loop
finishes within fuel 3 on a fresh adapter over `[1, 2]`. -/
theorem C10_termination_witness :
    (advance_cursor_while_fuel (fun v : Option Nat => v.isSome) 3
      (init [1, 2])).isSome = true :=
  (@C10_advance_while_termination_condition Nat).1
    (fun v => v.isSome) (init [1, 2]) rfl (by norm_num [USIZE_MAX, init])

/-- C9: the contiguity invariant holds of the initial state and is
preserved by every operation of the public surface: the queue always holds
exactly the contiguous run of source positions
`[consumption_point, consumption_point + queue.length)`. -/
theorem C9_queue_contiguity_invariant (S : List α) :
    wf S (init S) ∧ ∀ (op : Op α) (st : PMI α), wf S st → wf S (step op st) :=
  ⟨wf_init S, fun op _st h => wf_step op h⟩

/-- Witness for C9: the invariant transported across a concrete `next()`
call on a fresh adapter over `[7, 8]`. -/
theorem C9_queue_contiguity_witness : wf [7, 8] (step Op.nextOp (init [7, 8])) :=
  (C9_queue_contiguity_invariant [7, 8]).2 Op.nextOp (init [7, 8])
    (C9_queue_contiguity_invariant [7, 8]).1

/-- C7: for `start ≤ stop`, `peek_range` never panics or reads out of
bounds on any adapter state, and on a well-formed state it returns a view
of exactly `stop - start` slots indexed from the queue's front
(consumption point `k`), where slot `i` holds source position
`k + start + i` — which is the `none` marker for positions at or beyond
the source's end, never shortening the view. -/
theorem C7_peek_range_exact_window (start stop : Nat) (h : start ≤ stop) :
    (∀ st : PMI α, (peek_range start stop st).isSome = true) ∧
    (∀ (S : List α) (k : Nat) (st : PMI α), wfAt S k st →
      ∃ view st', peek_range start stop st = some (view, st') ∧
        view.length = stop - start ∧
        ∀ i, i < stop - start → view[i]? = some S[k + (start + i)]?) := by
  constructor
  · intro st
    obtain ⟨st', heq, -, -⟩ := @peek_range_some _ st _ _ h
    rw [heq]
    rfl
  · intro S k st hw
    obtain ⟨st', heq, hlen, hst⟩ := @peek_range_some _ st _ _ h
    have hw' : wfAt S k st' := by
      rcases hst with rfl | ⟨m, rfl⟩
      · exact hw
      · exact wfAt_pushN m hw
    refine ⟨_, st', heq, ?_, ?_⟩
    · simp only [List.length_take, List.length_drop]
      omega
    · intro i hi
      rw [List.getElem?_take_of_lt hi, List.getElem?_drop]
      have := hw'.1 (start + i) (by omega)
      rw [this]

/-- Witness for C7 at a fresh adapter over `[10, 20]` and the range
`[1, 4)`: the view exists and is exactly `[some 20, none, none]`. -/
theorem C7_peek_range_witness :
    (peek_range 1 4 (init ([10, 20] : List Nat))).isSome = true := by
  have hw : wfAt [10, 20] 0 (init ([10, 20] : List Nat)) := by
    constructor
    · intro i hi
      simp [init] at hi
    · simp [init]
  obtain ⟨view, st', heq, -, -⟩ :=
    (C7_peek_range_exact_window 1 4 (by norm_num)).2 [10, 20] 0 (init [10, 20]) hw
  rw [heq]
  rfl

/-- Witness for C8 at a concrete state: a fresh adapter over `[5]` has
cursor 0, so all three backward operations fail there and leave the state
untouched. -/
theorem C8_backward_ops_witness :
    ((move_cursor_back (init [5])).1 = false ↔ (init [5] : PMI Nat).cursor < 1) ∧
    ((move_cursor_back (init [5])).1 = false → (move_cursor_back (init [5])).2 = init [5]) ∧
    ((move_cursor_back_by 2 (init [5])).1 = false ↔ (init [5] : PMI Nat).cursor < 2) ∧
    ((move_cursor_back_by 2 (init [5])).1 = false →
      (move_cursor_back_by 2 (init [5])).2 = init [5]) ∧
    ((peek_previous (init [5])).1 = none ↔ (init [5] : PMI Nat).cursor < 1) ∧
    ((peek_previous (init [5])).1 = none → (peek_previous (init [5])).2 = init [5]) :=
  C8_backward_ops_error_iff_and_preserve (init [5]) 2

end ObsessivePeek
